import Mathlib

/-!
# Verification of the task scheduler (`src/algorithm.ts`)

Shallow embedding of the scheduling algorithm.  An instant in time is a
natural number of minutes since an epoch midnight; day index `0` of the
epoch is a Sunday, so `getDay` below matches JavaScript's `Date.getDay`
(0 = Sunday … 6 = Saturday) and all wall-clock arithmetic of the source
(`getHours`, `getMinutes`, `setHours`, `setMinutes`, `setDate`,
`setHours(0,0,0,0)`) becomes arithmetic modulo 1440.  The one-year
look-ahead bound (`setFullYear(getFullYear() + 1)`) is modelled as a
fixed 365-day year (`yearMinutes`); the exact length of the calendar
year is immaterial to every property proved here.
-/

namespace AlgorithmsScheduler

/-- Minute of the day of an instant: `getHours() * 60 + getMinutes()`. -/
def minuteOfDay (t : ℕ) : ℕ := t % 1440

/-- Calendar-day index of an instant (days since the epoch). -/
def dayIndex (t : ℕ) : ℕ := t / 1440

/-- Day of the week of an instant, `Date.getDay`: 0 = Sunday … 6 = Saturday
(epoch day 0 is a Sunday). -/
def getDay (t : ℕ) : ℕ := dayIndex t % 7

/-- `isSameDay` from the source: same year, month and date, i.e. the same
calendar day. -/
def isSameDay (date1 date2 : ℕ) : Bool := dayIndex date1 == dayIndex date2

/-- Midnight of the instant's calendar day: `setHours(0, 0, 0, 0)`. -/
def startOfDay (t : ℕ) : ℕ := dayIndex t * 1440

/-- `setHours(Math.floor(m / 60), m % 60, 0, 0)`: same calendar day, minute
of day `m`. -/
def setMinuteOfDay (t m : ℕ) : ℕ := startOfDay t + m

/-- `setDate(getDate() + 1)` followed by `setHours(0, 0, 0, 0)`: midnight of
the next calendar day. -/
def nextDayMidnight (t : ℕ) : ℕ := startOfDay t + 1440

/-- One year of minutes (365-day model of `setFullYear(getFullYear() + 1)`). -/
def yearMinutes : ℕ := 365 * 1440

/-- `TimeRange`: time of day in minutes from midnight. -/
structure TimeRange where
  startMinutes : ℕ
  endMinutes : ℕ
  deriving DecidableEq, Repr

/-- One entry of `Schedule.slots`: a weekly window `(dayOfWeek, timeRange)`,
`dayOfWeek` 0–6 where 0 is Sunday. -/
structure ScheduleSlot where
  dayOfWeek : ℕ
  timeRange : TimeRange
  deriving DecidableEq, Repr

/-- `Schedule`: a named weekly availability pattern. -/
structure Schedule where
  id : String
  name : String
  slots : List ScheduleSlot
  deriving DecidableEq, Repr

/-- `TaskStatus`. -/
inductive TaskStatus where
  | NOT_STARTED
  | IN_PROGRESS
  | COMPLETED
  deriving DecidableEq, Repr

/-- `TaskChunkStatus`. -/
inductive TaskChunkStatus where
  | NOT_STARTED
  | IN_PROGRESS
  | COMPLETED
  deriving DecidableEq, Repr

/-- `TaskChunk` (declared in the source but never touched by the algorithm). -/
structure TaskChunk where
  taskId : String
  start : ℕ
  stop : ℕ
  duration : ℕ
  status : TaskChunkStatus
  deriving DecidableEq, Repr

/-- `Task`.  `completedAt`, `scheduledStartDate`, `scheduledEndDate` are the
optional instant fields of the source. -/
structure Task where
  id : String
  name : String
  duration : ℕ
  scheduleId : String
  status : TaskStatus
  completedAt : Option ℕ := none
  scheduledStartDate : Option ℕ := none
  scheduledEndDate : Option ℕ := none
  chunkSize : Option ℕ := none
  chunks : List TaskChunk := []
  deriving DecidableEq, Repr

/-- `ScheduleOptions`: the planning horizon. -/
structure ScheduleOptions where
  startDate : ℕ
  endDate : ℕ
  deriving DecidableEq, Repr

/-- `findSlotForTask`: resolve a task's `Schedule` by `scheduleId`. -/
def findSlotForTask (task : Task) (slots : List Schedule) : Option Schedule :=
  slots.find? fun slot => slot.id == task.scheduleId

/-- The local `lastEndMinutes` constant of `getAvailableDurationsForDate`:
the cursor's minute of day when the cursor falls on `date`'s calendar day,
`0` otherwise. -/
def lastEndMinutesOf (date : ℕ) (lastEndTime : Option ℕ) : ℕ :=
  match lastEndTime with
  | some le => if isSameDay date le then minuteOfDay le else 0
  | none => 0

/-- `getAvailableDurationsForDate`: the windows of `slot` active on `date`'s
day of week, minus those entirely consumed by `lastEndTime` (when it falls on
the same calendar day), sorted ascending by `startMinutes`.  The source's
`.sort((a, b) => a.timeRange.startMinutes - b.timeRange.startMinutes)` is a
stable ascending sort; `List.insertionSort` with `≤` on the same key is the
stable ascending sort as well, so both produce the same list. -/
def getAvailableDurationsForDate (date : ℕ) (slot : Schedule)
    (lastEndTime : Option ℕ) : List ScheduleSlot :=
  let dayOfWeek := getDay date
  let lastEndMinutes : ℕ := lastEndMinutesOf date lastEndTime
  ((slot.slots.filter fun d => d.dayOfWeek == dayOfWeek).filter fun d =>
      if d.timeRange.endMinutes ≤ lastEndMinutes then
        -- If this duration ends before the last task ended, skip it
        false
      else if d.timeRange.startMinutes < lastEndMinutes then
        -- If this duration starts before the last task ended,
        -- it needs to have enough time remaining
        decide (0 < d.timeRange.endMinutes - lastEndMinutes)
      else
        true).insertionSort
    fun a b => a.timeRange.startMinutes ≤ b.timeRange.startMinutes

/-- The computation of `start` inside the window loop of
`getNextAvailableTime`: if we're on the same day as the last task and this
duration overlaps, start from the end of the last task; otherwise from the
window's own `startMinutes` on `currentDate`'s day. -/
def effectiveStart (currentDate : ℕ) (d : ScheduleSlot)
    (lastEndTime : Option ℕ) : ℕ :=
  match lastEndTime with
  | some le =>
    if isSameDay currentDate le ∧ d.timeRange.startMinutes < minuteOfDay le
    then le
    else setMinuteOfDay currentDate d.timeRange.startMinutes
  | none => setMinuteOfDay currentDate d.timeRange.startMinutes

/-- The inner `for (const duration of durations)` loop of
`getNextAvailableTime`: try each candidate window on day `currentDate` in
order, returning the first `(start, end)` placement whose end minute of day
does not pass the window's `endMinutes`. -/
def tryDurations (currentDate taskDuration : ℕ) (lastEndTime : Option ℕ) :
    List ScheduleSlot → Option (ℕ × ℕ)
  | [] => none
  | d :: rest =>
    let start : ℕ := effectiveStart currentDate d lastEndTime
    let stop : ℕ := start + taskDuration
    -- Check if the task fits within this duration
    if minuteOfDay stop ≤ d.timeRange.endMinutes then some (start, stop)
    else tryDurations currentDate taskDuration lastEndTime rest

/-- The `while (currentDate <= endDate)` day loop of `getNextAvailableTime`,
written with explicit fuel so that it is structurally recursive and
evaluates inside the kernel.  `searchLoop_fuel_irrelevant` below shows any
fuel covering the scanned range gives the same answer, so the fixed fuel
used by `getNextAvailableTime` is faithful to the unbounded source loop. -/
def searchLoop (slot : Schedule) (taskDuration : ℕ) (lastEndTime : Option ℕ)
    (endDate : ℕ) : ℕ → ℕ → Option (ℕ × ℕ)
  | 0, _ => none
  | fuel + 1, currentDate =>
    if currentDate ≤ endDate then
      match tryDurations currentDate taskDuration lastEndTime
          (getAvailableDurationsForDate currentDate slot lastEndTime) with
      | some r => some r
      | none =>
        searchLoop slot taskDuration lastEndTime endDate fuel
          (nextDayMidnight currentDate)
    else none

/-- Fuel covering a one-year day scan: 365 scanned days plus slack. -/
def searchFuel : ℕ := 367

/-- The `currentDate` the scan begins at: if we have a `lastEndTime` and
it's after our start date, start from there instead. -/
def initialSearchDate (date : ℕ) (lastEndTime : Option ℕ) : ℕ :=
  match lastEndTime with
  | some le => if date < le then le else date
  | none => date

/-- `getNextAvailableTime`: scan forward day by day from `date` (or from
`lastEndTime` when it lies after `date`), up to one year past `date`, for
the first placement of `taskDuration` minutes. -/
def getNextAvailableTime (date : ℕ) (slot : Schedule) (taskDuration : ℕ)
    (lastEndTime : Option ℕ) : Option (ℕ × ℕ) :=
  searchLoop slot taskDuration lastEndTime (date + yearMinutes) searchFuel
    (initialSearchDate date lastEndTime)

/-- `canTaskFitInSlot`: some window of the schedule has a span at least the
task's duration. -/
def canTaskFitInSlot (task : Task) (slot : Schedule) : Bool :=
  slot.slots.any fun d =>
    task.duration ≤ d.timeRange.endMinutes - d.timeRange.startMinutes

/-- The task loop of `schedule`, threading the cursor `lastEndTime` (the end
of the most recently committed task) through the list. -/
def scheduleGo (slots : List Schedule) (options : ScheduleOptions) :
    Option ℕ → List Task → List Task
  | _, [] => []
  | lastEndTime, task :: rest =>
    -- Skip completed tasks
    if task.status = TaskStatus.COMPLETED then
      task :: scheduleGo slots options lastEndTime rest
    else
      match findSlotForTask task slots with
      | none => task :: scheduleGo slots options lastEndTime rest
      | some slot =>
        -- If the task is too long to fit in any slot duration, skip it
        if canTaskFitInSlot task slot then
          match getNextAvailableTime options.startDate slot task.duration
              lastEndTime with
          | some (s, e) =>
            if e ≤ options.endDate then
              { task with scheduledStartDate := some s,
                          scheduledEndDate := some e }
                :: scheduleGo slots options (some e) rest
            else task :: scheduleGo slots options lastEndTime rest
          | none => task :: scheduleGo slots options lastEndTime rest
        else task :: scheduleGo slots options lastEndTime rest

/-- `schedule`: the entry point.  Processes tasks in input order with an
initially absent cursor. -/
def schedule (tasks : List Task) (slots : List Schedule)
    (options : ScheduleOptions) : List Task :=
  scheduleGo slots options none tasks

/-- Instrumented variant of `scheduleGo` that additionally records, for each
task, whether this run committed it (set its scheduled dates and advanced
the cursor).  `scheduleWithFlags_map_fst` shows it projects to `scheduleGo`. -/
def scheduleWithFlags (slots : List Schedule) (options : ScheduleOptions) :
    Option ℕ → List Task → List (Task × Bool)
  | _, [] => []
  | lastEndTime, task :: rest =>
    if task.status = TaskStatus.COMPLETED then
      (task, false) :: scheduleWithFlags slots options lastEndTime rest
    else
      match findSlotForTask task slots with
      | none => (task, false) :: scheduleWithFlags slots options lastEndTime rest
      | some slot =>
        if canTaskFitInSlot task slot then
          match getNextAvailableTime options.startDate slot task.duration
              lastEndTime with
          | some (s, e) =>
            if e ≤ options.endDate then
              ({ task with scheduledStartDate := some s,
                           scheduledEndDate := some e }, true)
                :: scheduleWithFlags slots options (some e) rest
            else (task, false) :: scheduleWithFlags slots options lastEndTime rest
          | none => (task, false) :: scheduleWithFlags slots options lastEndTime rest
        else (task, false) :: scheduleWithFlags slots options lastEndTime rest

/-- The `(scheduledStartDate, scheduledEndDate)` pairs of the tasks a run
committed, in input order. -/
def commitList (l : List (Task × Bool)) : List (ℕ × ℕ) :=
  l.filterMap fun p =>
    if p.2 then
      match p.1.scheduledStartDate, p.1.scheduledEndDate with
      | some s, some e => some (s, e)
      | _, _ => none
    else none

theorem scheduleWithFlags_map_fst (slots : List Schedule)
    (options : ScheduleOptions) (le : Option ℕ) (tasks : List Task) :
    (scheduleWithFlags slots options le tasks).map Prod.fst
      = scheduleGo slots options le tasks := by
  induction tasks generalizing le with
  | nil => rfl
  | cons task rest ih =>
    simp only [scheduleWithFlags, scheduleGo]
    split
    · simp [ih]
    · cases hf : findSlotForTask task slots with
      | none => simp [ih]
      | some slot =>
        simp only []
        split
        · cases hn : getNextAvailableTime options.startDate slot task.duration le with
          | none => simp [ih]
          | some r =>
            obtain ⟨s, e⟩ := r
            by_cases he : e ≤ options.endDate <;> simp [he, ih]
        · simp [ih]

/-! ### Basic facts about the time model -/

theorem startOfDay_le (t : ℕ) : startOfDay t ≤ t :=
  Nat.div_mul_le_self t 1440

theorem startOfDay_add_minuteOfDay (t : ℕ) :
    startOfDay t + minuteOfDay t = t := by
  simp only [startOfDay, minuteOfDay, dayIndex]
  omega

theorem minuteOfDay_lt (t : ℕ) : minuteOfDay t < 1440 :=
  Nat.mod_lt _ (by omega)

theorem lt_startOfDay_add (t : ℕ) : t < startOfDay t + 1440 := by
  have h1 := startOfDay_add_minuteOfDay t
  have h2 := minuteOfDay_lt t
  omega

theorem startOfDay_mono {a b : ℕ} (h : a ≤ b) : startOfDay a ≤ startOfDay b :=
  Nat.mul_le_mul_right _ (Nat.div_le_div_right h)

theorem dayIndex_mono {a b : ℕ} (h : a ≤ b) : dayIndex a ≤ dayIndex b :=
  Nat.div_le_div_right h

theorem startOfDay_nextDayMidnight (t : ℕ) :
    startOfDay (nextDayMidnight t) = startOfDay t + 1440 := by
  simp only [nextDayMidnight, startOfDay, dayIndex]
  omega

theorem lt_nextDayMidnight (t : ℕ) : t < nextDayMidnight t := by
  have := lt_startOfDay_add t
  simp only [nextDayMidnight]
  omega

theorem isSameDay_iff {a b : ℕ} : isSameDay a b = true ↔ dayIndex a = dayIndex b := by
  simp [isSameDay]

theorem startOfDay_eq_of_sameDay {a b : ℕ} (h : isSameDay a b = true) :
    startOfDay a = startOfDay b := by
  simp only [startOfDay, isSameDay_iff.mp h]

theorem getDay_lt (t : ℕ) : getDay t < 7 :=
  Nat.mod_lt _ (by omega)

/-! ### Invariants of the next-fit search -/

/-- Any placement `tryDurations` finds has length exactly `taskDuration`,
starts no earlier than the scanned day's midnight, and starts no earlier
than the cursor whenever the cursor does not lie past the scanned day. -/
theorem tryDurations_eq_some {c dur : ℕ} {le : Option ℕ} {L : List ScheduleSlot}
    {s e : ℕ} (h : tryDurations c dur le L = some (s, e)) :
    e = s + dur ∧ startOfDay c ≤ s ∧ ∀ l, le = some l → l ≤ c → l ≤ s := by
  induction L with
  | nil => simp [tryDurations] at h
  | cons d rest ih =>
    cases le with
    | none =>
      simp only [tryDurations, effectiveStart] at h
      split at h
      · simp only [Option.some.injEq, Prod.mk.injEq] at h
        obtain ⟨hs, he⟩ := h
        refine ⟨by omega, ?_, fun l hl => by simp at hl⟩
        simp only [← hs, setMinuteOfDay]
        omega
      · exact ih h
    | some l =>
      simp only [tryDurations, effectiveStart] at h
      by_cases hcont :
          isSameDay c l = true ∧ d.timeRange.startMinutes < minuteOfDay l
      · rw [if_pos hcont] at h
        split at h
        · simp only [Option.some.injEq, Prod.mk.injEq] at h
          obtain ⟨hs, he⟩ := h
          have hsd : dayIndex c = dayIndex l := isSameDay_iff.mp hcont.1
          refine ⟨by omega, ?_, ?_⟩
          · simp only [← hs, startOfDay, dayIndex] at hsd ⊢
            omega
          · intro l' hl' _
            obtain rfl : l' = l := by simpa using hl'.symm
            omega
        · exact ih h
      · rw [if_neg hcont] at h
        split at h
        · simp only [Option.some.injEq, Prod.mk.injEq] at h
          obtain ⟨hs, he⟩ := h
          refine ⟨by omega, by simp only [← hs, setMinuteOfDay]; omega, ?_⟩
          intro l' hl' hlec
          obtain rfl : l = l' := by simpa using hl'
          simp only [isSameDay_iff, not_and, not_lt] at hcont
          by_cases hsd : dayIndex c = dayIndex l
          · have hmin : minuteOfDay l ≤ d.timeRange.startMinutes :=
              hcont hsd
            simp only [← hs, setMinuteOfDay, startOfDay, minuteOfDay,
              dayIndex] at hmin hsd ⊢
            omega
          · simp only [← hs, setMinuteOfDay, startOfDay, dayIndex] at hsd ⊢
            have hld := dayIndex_mono hlec
            simp only [dayIndex] at hld
            omega
        · exact ih h

/-- Any placement the day loop finds has length exactly `dur`, starts no
earlier than the midnight of the first scanned day, and starts no earlier
than the cursor whenever the cursor does not lie past the first scanned
day. -/
theorem searchLoop_eq_some {slot : Schedule} {dur : ℕ} {le : Option ℕ}
    {endD : ℕ} :
    ∀ {fuel c s e}, searchLoop slot dur le endD fuel c = some (s, e) →
      e = s + dur ∧ startOfDay c ≤ s ∧ ∀ l, le = some l → l ≤ c → l ≤ s := by
  intro fuel
  induction fuel with
  | zero => intro c s e h; simp [searchLoop] at h
  | succ fuel ih =>
    intro c s e h
    rw [searchLoop] at h
    split at h
    · split at h
      · rename_i r hr
        obtain rfl : r = (s, e) := by simpa using h
        exact tryDurations_eq_some hr
      · obtain ⟨h1, h2, h3⟩ := ih h
        have hday := startOfDay_nextDayMidnight c
        refine ⟨h1, by omega, fun l hl hlc => ?_⟩
        exact h3 l hl (le_trans hlc (le_of_lt (lt_nextDayMidnight c)))
    · exact absurd h (by simp)

/-- Once the current date passes `endD`, the day loop yields `none`,
whatever fuel remains. -/
theorem searchLoop_none_of_past {slot : Schedule} {dur : ℕ} {le : Option ℕ}
    {endD : ℕ} (fuel c : ℕ) (h : endD < c) :
    searchLoop slot dur le endD fuel c = none := by
  cases fuel with
  | zero => rfl
  | succ fuel => rw [searchLoop, if_neg (by omega)]

/-- Fuel faithfulness: any fuel budget covering the scanned range computes
the same answer, so the fixed `searchFuel` of `getNextAvailableTime` behaves
exactly like the unbounded `while (currentDate <= endDate)` loop of the
source. -/
theorem searchLoop_fuel_irrelevant {slot : Schedule} {dur : ℕ}
    {le : Option ℕ} {endD : ℕ} :
    ∀ (fuel k c : ℕ), endD < startOfDay c + 1440 * fuel →
      searchLoop slot dur le endD (fuel + k) c
        = searchLoop slot dur le endD fuel c := by
  intro fuel
  induction fuel with
  | zero =>
    intro k c hc
    have hc' : endD < c := by
      have := startOfDay_le c
      omega
    rw [searchLoop_none_of_past _ _ hc', searchLoop_none_of_past _ _ hc']
  | succ fuel ih =>
    intro k c hc
    rw [show fuel + 1 + k = (fuel + k) + 1 by omega]
    rw [searchLoop, searchLoop]
    split
    · split
      · rfl
      · apply ih
        rw [startOfDay_nextDayMidnight]
        omega
    · rfl

/-- Any placement `getNextAvailableTime` returns has length exactly `dur`,
starts no earlier than the midnight of `date`'s calendar day, and starts no
earlier than the cursor `lastEndTime`. -/
theorem getNextAvailableTime_eq_some {date : ℕ} {slot : Schedule} {dur : ℕ}
    {le : Option ℕ} {s e : ℕ}
    (h : getNextAvailableTime date slot dur le = some (s, e)) :
    e = s + dur ∧ startOfDay date ≤ s ∧ ∀ l, le = some l → l ≤ s := by
  simp only [getNextAvailableTime, initialSearchDate] at h
  cases le with
  | none =>
    obtain ⟨h1, h2, h3⟩ := searchLoop_eq_some h
    exact ⟨h1, h2, fun l hl => by simp at hl⟩
  | some l =>
    simp only at h
    by_cases hdl : date < l
    · rw [if_pos hdl] at h
      obtain ⟨h1, h2, h3⟩ := searchLoop_eq_some h
      refine ⟨h1, le_trans (startOfDay_mono (le_of_lt hdl)) h2, ?_⟩
      intro l' hl'
      obtain rfl : l = l' := by simpa using hl'
      exact h3 l rfl le_rfl
    · rw [if_neg hdl] at h
      obtain ⟨h1, h2, h3⟩ := searchLoop_eq_some h
      refine ⟨h1, h2, ?_⟩
      intro l' hl'
      obtain rfl : l = l' := by simpa using hl'
      exact h3 l rfl (by omega)

theorem initialSearchDate_ge (date : ℕ) (le : Option ℕ) :
    date ≤ initialSearchDate date le := by
  cases le with
  | none => exact le_rfl
  | some l =>
    simp only [initialSearchDate]
    split <;> omega

/-- `searchFuel` is large enough: adding any extra fuel to the day loop at
the call site of `getNextAvailableTime` does not change its answer, i.e. the
fuelled loop is observationally the source's unbounded one-year loop. -/
theorem getNextAvailableTime_fuel_sufficient (date : ℕ) (slot : Schedule)
    (dur : ℕ) (le : Option ℕ) (k : ℕ) :
    searchLoop slot dur le (date + yearMinutes) (searchFuel + k)
        (initialSearchDate date le)
      = getNextAvailableTime date slot dur le := by
  rw [getNextAvailableTime]
  apply searchLoop_fuel_irrelevant
  have h1 := initialSearchDate_ge date le
  have h2 := startOfDay_mono h1
  have h3 := lt_startOfDay_add date
  simp only [yearMinutes, searchFuel] at *
  omega

/-- With no entry matching any possible day of the week, the resolver
returns no windows on any date. -/
theorem getAvailableDurations_nil_of_no_weekday {date : ℕ} {slot : Schedule}
    {le : Option ℕ} (h : ∀ d ∈ slot.slots, 7 ≤ d.dayOfWeek) :
    getAvailableDurationsForDate date slot le = [] := by
  simp only [getAvailableDurationsForDate]
  have hfil : slot.slots.filter (fun d => d.dayOfWeek == getDay date) = [] := by
    rw [List.filter_eq_nil_iff]
    intro d hd
    have h1 := h d hd
    have h2 := getDay_lt date
    simp only [beq_iff_eq]
    omega
  rw [hfil]
  rfl

theorem searchLoop_none_of_no_weekday {slot : Schedule} {dur : ℕ}
    {le : Option ℕ} {endD : ℕ} (h : ∀ d ∈ slot.slots, 7 ≤ d.dayOfWeek) :
    ∀ fuel c, searchLoop slot dur le endD fuel c = none := by
  intro fuel
  induction fuel with
  | zero => intro c; rfl
  | succ fuel ih =>
    intro c
    rw [searchLoop]
    split
    · rw [getAvailableDurations_nil_of_no_weekday h]
      split
      · rename_i r hr
        simp [tryDurations] at hr
      · exact ih _
    · rfl

/-! ### Invariants of the allocator -/

/-- One step of the instrumented allocator: a task is either skipped (flag
`false`, cursor unchanged) or committed (flag `true`, dates set from a
successful in-horizon search, cursor advanced to the new end). -/
theorem scheduleWithFlags_cons (slots : List Schedule)
    (opts : ScheduleOptions) (le : Option ℕ) (task : Task)
    (rest : List Task) :
    (scheduleWithFlags slots opts le (task :: rest)
        = (task, false) :: scheduleWithFlags slots opts le rest)
    ∨ ∃ slot s e,
        task.status ≠ TaskStatus.COMPLETED
        ∧ findSlotForTask task slots = some slot
        ∧ canTaskFitInSlot task slot = true
        ∧ getNextAvailableTime opts.startDate slot task.duration le
            = some (s, e)
        ∧ e ≤ opts.endDate
        ∧ scheduleWithFlags slots opts le (task :: rest)
            = ({ task with
                  scheduledStartDate := some s
                  scheduledEndDate := some e }, true)
              :: scheduleWithFlags slots opts (some e) rest := by
  rw [scheduleWithFlags]
  split
  · exact Or.inl rfl
  · rename_i hst
    split
    · exact Or.inl rfl
    · rename_i slot hslot
      split
      · rename_i hfit
        split
        · rename_i r s e hnext
          split
          · rename_i hend
            exact Or.inr ⟨slot, s, e, hst, hslot, hfit, hnext, hend, rfl⟩
          · exact Or.inl rfl
        · exact Or.inl rfl
      · exact Or.inl rfl

/-- Every task flagged as committed carries scheduled dates spanning exactly
its duration, starting no earlier than the midnight of the horizon's
`startDate`, and ending no later than the horizon's `endDate`. -/
theorem scheduleWithFlags_commit_facts (slots : List Schedule)
    (opts : ScheduleOptions) :
    ∀ (le : Option ℕ) (tasks : List Task) (p : Task × Bool),
      p ∈ scheduleWithFlags slots opts le tasks → p.2 = true →
      ∃ s, p.1.scheduledStartDate = some s
        ∧ p.1.scheduledEndDate = some (s + p.1.duration)
        ∧ startOfDay opts.startDate ≤ s
        ∧ s + p.1.duration ≤ opts.endDate := by
  intro le tasks
  induction tasks generalizing le with
  | nil => intro p hp _; simp [scheduleWithFlags] at hp
  | cons task rest ih =>
    intro p hp hflag
    rcases scheduleWithFlags_cons slots opts le task rest with hskip |
      ⟨slot, s, e, hst, hslot, hfit, hnext, hend, hcommit⟩
    · rw [hskip] at hp
      rcases List.mem_cons.mp hp with rfl | hp'
      · simp at hflag
      · exact ih _ _ hp' hflag
    · rw [hcommit] at hp
      rcases List.mem_cons.mp hp with rfl | hp'
      · obtain ⟨h1, h2, h3⟩ := getNextAvailableTime_eq_some hnext
        exact ⟨s, rfl, by simp only; rw [← h1], h2, by simp only; omega⟩
      · exact ih _ _ hp' hflag

/-- Consecutive commits of one run are ordered: each committed interval ends
no later than the next committed interval starts, and every commit starts no
earlier than the initial cursor. -/
theorem commitList_chain (slots : List Schedule) (opts : ScheduleOptions) :
    ∀ (le : Option ℕ) (tasks : List Task),
      List.Chain' (fun p q : ℕ × ℕ => p.2 ≤ q.1)
          (commitList (scheduleWithFlags slots opts le tasks))
      ∧ ∀ p ∈ commitList (scheduleWithFlags slots opts le tasks),
          ∀ l, le = some l → l ≤ p.1 := by
  intro le tasks
  induction tasks generalizing le with
  | nil => simp [scheduleWithFlags, commitList]
  | cons task rest ih =>
    rcases scheduleWithFlags_cons slots opts le task rest with hskip |
      ⟨slot, s, e, hst, hslot, hfit, hnext, hend, hcommit⟩
    · rw [hskip]
      have hcl : commitList ((task, false)
            :: scheduleWithFlags slots opts le rest)
          = commitList (scheduleWithFlags slots opts le rest) := by
        simp [commitList]
      rw [hcl]
      exact ih le
    · rw [hcommit]
      obtain ⟨h1, h2, h3⟩ := getNextAvailableTime_eq_some hnext
      have hcl : commitList (({ task with
              scheduledStartDate := some s
              scheduledEndDate := some e }, true)
            :: scheduleWithFlags slots opts (some e) rest)
          = (s, e) :: commitList (scheduleWithFlags slots opts (some e) rest) := by
        simp [commitList]
      rw [hcl]
      obtain ⟨ihchain, ihlower⟩ := ih (some e)
      constructor
      · rw [List.chain'_cons']
        refine ⟨fun q hq => ?_, ihchain⟩
        exact ihlower q (List.mem_of_mem_head? hq) e rfl
      · intro p hp l hl
        rcases List.mem_cons.mp hp with rfl | hp'
        · exact h3 l hl
        · have he := ihlower p hp' e rfl
          have hls := h3 l hl
          omega

/-! ### Characterisation of the window resolver -/

instance instStartMinutesTotal :
    IsTotal ScheduleSlot
      (fun a b => a.timeRange.startMinutes ≤ b.timeRange.startMinutes) :=
  ⟨fun a b => Nat.le_total a.timeRange.startMinutes b.timeRange.startMinutes⟩

instance instStartMinutesTrans :
    IsTrans ScheduleSlot
      (fun a b => a.timeRange.startMinutes ≤ b.timeRange.startMinutes) :=
  ⟨fun _ _ _ hab hbc => Nat.le_trans hab hbc⟩

/-- The two cascaded filters of the resolver amount to one filter: keep the
entries on `date`'s day of week whose `endMinutes` exceeds the already
consumed `lastEndMinutes`. -/
theorem getAvailableDurations_eq (date : ℕ) (slot : Schedule)
    (cursor : Option ℕ) :
    getAvailableDurationsForDate date slot cursor
      = (slot.slots.filter fun d =>
            d.dayOfWeek == getDay date
              && decide (lastEndMinutesOf date cursor
                  < d.timeRange.endMinutes)).insertionSort
          (fun a b => a.timeRange.startMinutes ≤ b.timeRange.startMinutes) := by
  simp only [getAvailableDurationsForDate]
  congr 1
  rw [List.filter_filter]
  apply List.filter_congr
  intro d _
  cases hb : (d.dayOfWeek == getDay date) with
  | false => rw [Bool.and_false, Bool.false_and]
  | true =>
    rw [Bool.and_true, Bool.true_and]
    by_cases h1 : d.timeRange.endMinutes ≤ lastEndMinutesOf date cursor
    · rw [if_pos h1]
      exact (decide_eq_false (by omega)).symm
    · rw [if_neg h1]
      by_cases h2 : d.timeRange.startMinutes < lastEndMinutesOf date cursor
      · rw [if_pos h2, decide_eq_decide]
        omega
      · rw [if_neg h2]
        exact (decide_eq_true (by omega)).symm

/-! ### Step equations of the allocator loop -/

theorem scheduleGo_cons_completed {task : Task} (slots : List Schedule)
    (opts : ScheduleOptions) (le : Option ℕ) (rest : List Task)
    (hst : task.status = TaskStatus.COMPLETED) :
    scheduleGo slots opts le (task :: rest)
      = task :: scheduleGo slots opts le rest := by
  rw [scheduleGo, if_pos hst]

theorem scheduleGo_cons_noSlot {task : Task} {slots : List Schedule}
    (opts : ScheduleOptions) (le : Option ℕ) (rest : List Task)
    (hst : task.status ≠ TaskStatus.COMPLETED)
    (hslot : findSlotForTask task slots = none) :
    scheduleGo slots opts le (task :: rest)
      = task :: scheduleGo slots opts le rest := by
  rw [scheduleGo, if_neg hst]
  split
  · rfl
  · rename_i slot h
    exact absurd (hslot.symm.trans h) (by simp)

theorem scheduleGo_cons_noFit {task : Task} {slots : List Schedule}
    {slot : Schedule} (opts : ScheduleOptions) (le : Option ℕ)
    (rest : List Task)
    (hst : task.status ≠ TaskStatus.COMPLETED)
    (hslot : findSlotForTask task slots = some slot)
    (hfit : canTaskFitInSlot task slot = false) :
    scheduleGo slots opts le (task :: rest)
      = task :: scheduleGo slots opts le rest := by
  rw [scheduleGo, if_neg hst]
  split
  · rename_i h
    exact absurd (hslot.symm.trans h) (by simp)
  · rename_i slot' h
    obtain rfl : slot = slot' := by simpa using hslot.symm.trans h
    rw [if_neg (by simp [hfit])]

theorem scheduleGo_cons_noTime {task : Task} {slots : List Schedule}
    {slot : Schedule} {opts : ScheduleOptions} {le : Option ℕ}
    (rest : List Task)
    (hst : task.status ≠ TaskStatus.COMPLETED)
    (hslot : findSlotForTask task slots = some slot)
    (hfit : canTaskFitInSlot task slot = true)
    (hnext : getNextAvailableTime opts.startDate slot task.duration le
        = none) :
    scheduleGo slots opts le (task :: rest)
      = task :: scheduleGo slots opts le rest := by
  rw [scheduleGo, if_neg hst]
  split
  · rename_i h
    exact absurd (hslot.symm.trans h) (by simp)
  · rename_i slot' h
    obtain rfl : slot = slot' := by simpa using hslot.symm.trans h
    rw [if_pos hfit]
    split
    · rename_i r s e h'
      exact absurd (hnext.symm.trans h') (by simp)
    · rfl

theorem scheduleGo_cons_lateEnd {task : Task} {slots : List Schedule}
    {slot : Schedule} {opts : ScheduleOptions} {le : Option ℕ} {s e : ℕ}
    (rest : List Task)
    (hst : task.status ≠ TaskStatus.COMPLETED)
    (hslot : findSlotForTask task slots = some slot)
    (hfit : canTaskFitInSlot task slot = true)
    (hnext : getNextAvailableTime opts.startDate slot task.duration le
        = some (s, e))
    (hend : ¬ e ≤ opts.endDate) :
    scheduleGo slots opts le (task :: rest)
      = task :: scheduleGo slots opts le rest := by
  rw [scheduleGo, if_neg hst]
  split
  · rename_i h
    exact absurd (hslot.symm.trans h) (by simp)
  · rename_i slot' h
    obtain rfl : slot = slot' := by simpa using hslot.symm.trans h
    rw [if_pos hfit]
    split
    · rename_i r s' e' h'
      obtain ⟨rfl, rfl⟩ : s = s' ∧ e = e' := by
        simpa using hnext.symm.trans h'
      rw [if_neg hend]
    · rename_i h'
      exact absurd (hnext.symm.trans h') (by simp)

theorem scheduleGo_cons_commit {task : Task} {slots : List Schedule}
    {slot : Schedule} {opts : ScheduleOptions} {le : Option ℕ} {s e : ℕ}
    (rest : List Task)
    (hst : task.status ≠ TaskStatus.COMPLETED)
    (hslot : findSlotForTask task slots = some slot)
    (hfit : canTaskFitInSlot task slot = true)
    (hnext : getNextAvailableTime opts.startDate slot task.duration le
        = some (s, e))
    (hend : e ≤ opts.endDate) :
    scheduleGo slots opts le (task :: rest)
      = { task with scheduledStartDate := some s, scheduledEndDate := some e }
          :: scheduleGo slots opts (some e) rest := by
  rw [scheduleGo, if_neg hst]
  split
  · rename_i h
    exact absurd (hslot.symm.trans h) (by simp)
  · rename_i slot' h
    obtain rfl : slot = slot' := by simpa using hslot.symm.trans h
    rw [if_pos hfit]
    split
    · rename_i r s' e' h'
      obtain ⟨rfl, rfl⟩ : s = s' ∧ e = e' := by
        simpa using hnext.symm.trans h'
      rw [if_pos hend]
    · rename_i h'
      exact absurd (hnext.symm.trans h') (by simp)

/-- Re-running the allocator on its own output changes nothing: the second
run makes the same branch decisions (they depend only on `status`,
`scheduleId` and `duration`, none of which a commit changes) and re-commits
the same dates. -/
theorem scheduleGo_idem (slots : List Schedule) (opts : ScheduleOptions) :
    ∀ (le : Option ℕ) (tasks : List Task),
      scheduleGo slots opts le (scheduleGo slots opts le tasks)
        = scheduleGo slots opts le tasks := by
  intro le tasks
  induction tasks generalizing le with
  | nil => rfl
  | cons task rest ih =>
    by_cases hst : task.status = TaskStatus.COMPLETED
    · rw [scheduleGo_cons_completed slots opts le rest hst,
        scheduleGo_cons_completed slots opts le _ hst, ih]
    · cases hslot : findSlotForTask task slots with
      | none =>
        rw [scheduleGo_cons_noSlot opts le rest hst hslot,
          scheduleGo_cons_noSlot opts le _ hst hslot, ih]
      | some slot =>
        cases hfit : canTaskFitInSlot task slot with
        | false =>
          rw [scheduleGo_cons_noFit opts le rest hst hslot hfit,
            scheduleGo_cons_noFit opts le _ hst hslot hfit, ih]
        | true =>
          cases hnext : getNextAvailableTime opts.startDate slot
              task.duration le with
          | none =>
            rw [scheduleGo_cons_noTime rest hst hslot hfit hnext,
              scheduleGo_cons_noTime _ hst hslot hfit hnext, ih]
          | some r =>
            obtain ⟨s, e⟩ := r
            by_cases hend : e ≤ opts.endDate
            · rw [scheduleGo_cons_commit rest hst hslot hfit hnext hend]
              have hst' : ({ task with scheduledStartDate := some s, scheduledEndDate := some e } : Task).status ≠ TaskStatus.COMPLETED := hst
              have hslot' : findSlotForTask { task with scheduledStartDate := some s, scheduledEndDate := some e } slots = some slot := hslot
              have hfit' : canTaskFitInSlot { task with scheduledStartDate := some s, scheduledEndDate := some e } slot = true := hfit
              have hnext' : getNextAvailableTime opts.startDate slot ({ task with scheduledStartDate := some s, scheduledEndDate := some e } : Task).duration le = some (s, e) := hnext
              rw [scheduleGo_cons_commit _ hst' hslot' hfit' hnext' hend, ih]
            · rw [scheduleGo_cons_lateEnd rest hst hslot hfit hnext hend,
                scheduleGo_cons_lateEnd _ hst hslot hfit hnext hend, ih]

/-! ### Concrete fixtures

Day index 1 of the epoch is a Monday (day 0 is a Sunday), so the instant
`1440` is a Monday midnight, `2040` is Monday 10:00, and so on. -/

/-- Monday and Tuesday 09:00–17:00. -/
def workdaySlot : Schedule :=
  { id := "workday"
    name := "Regular Workday"
    slots := [⟨1, ⟨540, 1020⟩⟩, ⟨2, ⟨540, 1020⟩⟩] }

/-- Monday 23:00–23:59 plus Tuesday 09:00–17:00. -/
def lateNightSlot : Schedule :=
  { id := "night"
    name := "Late night"
    slots := [⟨1, ⟨1380, 1439⟩⟩, ⟨2, ⟨540, 1020⟩⟩] }

/-- A schedule none of whose entries matches any real day of the week. -/
def noWeekdaySlot : Schedule :=
  { id := "never"
    name := "Never"
    slots := [⟨7, ⟨0, 600⟩⟩] }

/-- A task with the given duration, status and schedule reference. -/
def demoTask (d : ℕ) (st : TaskStatus) (sid : String) : Task :=
  { id := "t", name := "t", duration := d, scheduleId := sid, status := st }

/-- A task carrying stale scheduled dates from an earlier run. -/
def staleTask : Task :=
  { id := "x"
    name := "x"
    duration := 60
    scheduleId := "workday"
    status := TaskStatus.NOT_STARTED
    scheduledStartDate := some 7
    scheduledEndDate := some 8 }

/-! ### The claims -/

/-- C1: the claim says every committed interval lies within a single window
instance on a single calendar day and never crosses midnight.  The code
violates it: the fit test compares the end's minute of day (`end mod 1440`)
with the window's `endMinutes`, so the minute wraps past midnight.  At the
failing input below — a 120-minute task against a Monday 23:00–23:59 window
(plus a Tuesday window that lets the `canTaskFitInSlot` pre-check pass) —
the run commits start = 2820 (Monday 23:00) and end = 2940 (Tuesday 01:00):
the committed interval spans two calendar days, leaving the Monday window
and crossing midnight. -/
theorem c1_commit_crosses_midnight :
    (schedule [demoTask 120 TaskStatus.NOT_STARTED "night"] [lateNightSlot]
        { startDate := 1440, endDate := 12960 }).map
        (fun t => (t.scheduledStartDate, t.scheduledEndDate))
      = [(some 2820, some 2940)]
    ∧ dayIndex 2820 = 1 ∧ dayIndex 2940 = 2
    ∧ isSameDay 2820 2940 = false
    ∧ 1439 < 2940 - startOfDay 2820 := by
  exact ⟨by decide, by decide, by decide, by decide, by decide⟩

/-- C2, as stated, is false: a committed task can start before
`options.startDate` when the horizon start has a nonzero time of day,
because the per-day search takes the window's own start minute.  Here the
horizon starts Monday 10:00 (2040) yet the task is committed at Monday
09:00 (1980). -/
theorem c2_counterexample :
    (scheduleWithFlags [workdaySlot] { startDate := 2040, endDate := 12960 }
        none [demoTask 60 TaskStatus.NOT_STARTED "workday"]).map
        (fun p => (p.1.scheduledStartDate, p.1.scheduledEndDate, p.2))
      = [(some 1980, some 2040, true)]
    ∧ 1980 < 2040 := by
  exact ⟨by decide, by decide⟩

/-- C2 (amended): every task committed by a run satisfies
`scheduledEndDate ≤ options.endDate`, and `scheduledStartDate` is bounded
below by the midnight of `options.startDate`'s calendar day (hence by
`options.startDate` itself whenever the horizon starts at midnight), not by
`options.startDate` in general.  The first conjunct ties the instrumented
run to `schedule`. -/
theorem c2_commits_within_clamped_horizon (tasks : List Task)
    (slots : List Schedule) (opts : ScheduleOptions) (p : Task × Bool)
    (hp : p ∈ scheduleWithFlags slots opts none tasks)
    (hflag : p.2 = true) :
    (scheduleWithFlags slots opts none tasks).map Prod.fst
        = schedule tasks slots opts
    ∧ ∃ s e, p.1.scheduledStartDate = some s
        ∧ p.1.scheduledEndDate = some e
        ∧ startOfDay opts.startDate ≤ s
        ∧ e ≤ opts.endDate := by
  refine ⟨scheduleWithFlags_map_fst slots opts none tasks, ?_⟩
  obtain ⟨s, h1, h2, h3, h4⟩ :=
    scheduleWithFlags_commit_facts slots opts none tasks p hp hflag
  exact ⟨s, s + p.1.duration, h1, h2, h3, h4⟩

theorem c2_witness :
    (scheduleWithFlags [workdaySlot]
          { startDate := 2040, endDate := 12960 } none
          [demoTask 60 TaskStatus.NOT_STARTED "workday"]).map Prod.fst
        = schedule [demoTask 60 TaskStatus.NOT_STARTED "workday"]
            [workdaySlot] { startDate := 2040, endDate := 12960 }
    ∧ ∃ s e,
        ({ demoTask 60 TaskStatus.NOT_STARTED "workday" with
            scheduledStartDate := some 1980, scheduledEndDate := some 2040 } : Task).scheduledStartDate = some s
        ∧ ({ demoTask 60 TaskStatus.NOT_STARTED "workday" with
            scheduledStartDate := some 1980, scheduledEndDate := some 2040 } : Task).scheduledEndDate = some e
        ∧ startOfDay 2040 ≤ s
        ∧ e ≤ 12960 :=
  c2_commits_within_clamped_horizon
    [demoTask 60 TaskStatus.NOT_STARTED "workday"] [workdaySlot]
    { startDate := 2040, endDate := 12960 }
    ({ demoTask 60 TaskStatus.NOT_STARTED "workday" with
        scheduledStartDate := some 1980, scheduledEndDate := some 2040 }, true)
    (by decide) rfl

/-- C3: for any two tasks committed by the same run, consecutive among the
run's commits (in input order), the second's `scheduledStartDate` is at
least the first's `scheduledEndDate`: the commit list is a `≤`-chain, so
committed tasks never overlap and the cursor is monotone.  The first
conjunct ties the instrumented run to `schedule`. -/
theorem c3_commits_monotone (tasks : List Task) (slots : List Schedule)
    (opts : ScheduleOptions) :
    (scheduleWithFlags slots opts none tasks).map Prod.fst
        = schedule tasks slots opts
    ∧ List.Chain' (fun p q : ℕ × ℕ => p.2 ≤ q.1)
        (commitList (scheduleWithFlags slots opts none tasks)) :=
  ⟨scheduleWithFlags_map_fst slots opts none tasks,
   (commitList_chain slots opts none tasks).1⟩

/-- C4: on every failure mode — unresolvable `scheduleId`, duration
exceeding every window's span, no fit found, or a fit ending past
`options.endDate` — the task is passed through unchanged and the cursor is
left as it was, so the rest of the run continues from the previous
successful commit (and, the embedding being total, no exception arises). -/
theorem c4_failure_leaves_task_and_cursor (slots : List Schedule)
    (opts : ScheduleOptions) (le : Option ℕ) (task : Task)
    (rest : List Task)
    (hst : task.status ≠ TaskStatus.COMPLETED)
    (hfail : findSlotForTask task slots = none
      ∨ ∃ slot, findSlotForTask task slots = some slot
          ∧ (canTaskFitInSlot task slot = false
            ∨ getNextAvailableTime opts.startDate slot task.duration le
                = none
            ∨ ∃ s e, getNextAvailableTime opts.startDate slot task.duration le
                  = some (s, e) ∧ opts.endDate < e)) :
    scheduleGo slots opts le (task :: rest)
      = task :: scheduleGo slots opts le rest := by
  rcases hfail with h | ⟨slot, hslot, hcase⟩
  · exact scheduleGo_cons_noSlot opts le rest hst h
  · cases hfit : canTaskFitInSlot task slot with
    | false => exact scheduleGo_cons_noFit opts le rest hst hslot hfit
    | true =>
      rcases hcase with h | h | ⟨s, e, hnext, hend⟩
      · rw [h] at hfit; cases hfit
      · exact scheduleGo_cons_noTime rest hst hslot hfit h
      · exact scheduleGo_cons_lateEnd rest hst hslot hfit hnext (by omega)

theorem c4_witness :
    scheduleGo [workdaySlot] { startDate := 1440, endDate := 12960 } none
        [demoTask 60 TaskStatus.NOT_STARTED "missing"]
      = [demoTask 60 TaskStatus.NOT_STARTED "missing"] :=
  c4_failure_leaves_task_and_cursor [workdaySlot]
    { startDate := 1440, endDate := 12960 } none
    (demoTask 60 TaskStatus.NOT_STARTED "missing") []
    (by decide) (Or.inl (by decide))

/-- C5: every task committed by a run carries
`scheduledEndDate = scheduledStartDate + duration`: the placement spans
exactly the task's duration in minutes. -/
theorem c5_commit_duration_exact (tasks : List Task)
    (slots : List Schedule) (opts : ScheduleOptions) (p : Task × Bool)
    (hp : p ∈ scheduleWithFlags slots opts none tasks)
    (hflag : p.2 = true) :
    ∃ s, p.1.scheduledStartDate = some s
      ∧ p.1.scheduledEndDate = some (s + p.1.duration) := by
  obtain ⟨s, h1, h2, _, _⟩ :=
    scheduleWithFlags_commit_facts slots opts none tasks p hp hflag
  exact ⟨s, h1, h2⟩

theorem c5_witness :
    ∃ s, ({ demoTask 60 TaskStatus.NOT_STARTED "workday" with
        scheduledStartDate := some 1980, scheduledEndDate := some 2040 } : Task).scheduledStartDate = some s
      ∧ ({ demoTask 60 TaskStatus.NOT_STARTED "workday" with
        scheduledStartDate := some 1980, scheduledEndDate := some 2040 } : Task).scheduledEndDate
          = some (s + ({ demoTask 60 TaskStatus.NOT_STARTED "workday" with
              scheduledStartDate := some 1980, scheduledEndDate := some 2040 } : Task).duration) :=
  c5_commit_duration_exact
    [demoTask 60 TaskStatus.NOT_STARTED "workday"] [workdaySlot]
    { startDate := 1440, endDate := 12960 }
    ({ demoTask 60 TaskStatus.NOT_STARTED "workday" with
        scheduledStartDate := some 1980, scheduledEndDate := some 2040 }, true)
    (by decide) rfl

/-- C6: the window resolver returns exactly (as a multiset — nothing merged,
deduplicated or truncated) the schedule entries on `date`'s day of week
whose `endMinutes` exceeds `lastEndMinutes` (the cursor's minute of day when
the cursor shares `date`'s calendar day, 0 otherwise), sorted ascending by
`startMinutes`. -/
theorem c6_resolver_exact (date : ℕ) (slot : Schedule)
    (cursor : Option ℕ) :
    (getAvailableDurationsForDate date slot cursor).Perm
        (slot.slots.filter fun d =>
          d.dayOfWeek == getDay date
            && decide (lastEndMinutesOf date cursor < d.timeRange.endMinutes))
      ∧ (getAvailableDurationsForDate date slot cursor).Pairwise
          (fun a b => a.timeRange.startMinutes ≤ b.timeRange.startMinutes) := by
  rw [getAvailableDurations_eq]
  exact ⟨List.perm_insertionSort _ _, List.sorted_insertionSort _ _⟩

/-- C7: `schedule` is idempotent — re-running it on the output of a prior
run with the same schedules and horizon reproduces that output exactly
(every task's commits included), since no branch decision reads the
scheduled-date fields a commit writes. -/
theorem c7_schedule_idempotent (tasks : List Task)
    (slots : List Schedule) (opts : ScheduleOptions) :
    schedule (schedule tasks slots opts) slots opts
      = schedule tasks slots opts :=
  scheduleGo_idem slots opts none tasks

/-- C8: a COMPLETED task is skipped entirely: it is passed through to the
output untouched (all fields identical to the input), and the remaining
tasks are processed with the cursor it found, unaffected. -/
theorem c8_completed_skipped (slots : List Schedule)
    (opts : ScheduleOptions) (le : Option ℕ) (task : Task)
    (rest : List Task) (hst : task.status = TaskStatus.COMPLETED) :
    scheduleGo slots opts le (task :: rest)
      = task :: scheduleGo slots opts le rest :=
  scheduleGo_cons_completed slots opts le rest hst

theorem c8_witness :
    scheduleGo [workdaySlot] { startDate := 1440, endDate := 12960 } none
        [demoTask 60 TaskStatus.COMPLETED "workday",
          demoTask 60 TaskStatus.NOT_STARTED "workday"]
      = demoTask 60 TaskStatus.COMPLETED "workday"
          :: scheduleGo [workdaySlot] { startDate := 1440, endDate := 12960 }
              none [demoTask 60 TaskStatus.NOT_STARTED "workday"] :=
  c8_completed_skipped [workdaySlot]
    { startDate := 1440, endDate := 12960 } none
    (demoTask 60 TaskStatus.COMPLETED "workday")
    [demoTask 60 TaskStatus.NOT_STARTED "workday"] (by decide)

/-- C9: the next-fit search terminates on every input (it is a total
function of this development): its day loop answers `none` as soon as the
current date passes the bound one year after the origin, whatever fuel
remains, and a schedule with no entry matching any day of the week (every
`dayOfWeek ≥ 7`) makes the whole search return `none` instead of running
forever — hence `schedule` terminates for every input. -/
theorem c9_search_bounded (date : ℕ) (slot : Schedule) (dur : ℕ)
    (le : Option ℕ) :
    (∀ fuel c, date + yearMinutes < c →
        searchLoop slot dur le (date + yearMinutes) fuel c = none)
    ∧ ((∀ d ∈ slot.slots, 7 ≤ d.dayOfWeek) →
        getNextAvailableTime date slot dur le = none) := by
  constructor
  · intro fuel c hc
    exact searchLoop_none_of_past fuel c hc
  · intro h
    rw [getNextAvailableTime]
    exact searchLoop_none_of_no_weekday h _ _

theorem c9_witness :
    searchLoop noWeekdaySlot 60 none (1440 + yearMinutes) 5 (2 * yearMinutes)
        = none
    ∧ getNextAvailableTime 1440 noWeekdaySlot 60 none = none :=
  ⟨(c9_search_bounded 1440 noWeekdaySlot 60 none).1 5 (2 * yearMinutes)
      (by decide),
   (c9_search_bounded 1440 noWeekdaySlot 60 none).2 (by decide)⟩

/-- Replace the status of the first task of a list. -/
def setStatusOfHead (st : TaskStatus) : List Task → List Task
  | [] => []
  | t :: rest => { t with status := st } :: rest

/-- C10: an IN_PROGRESS task is treated exactly like a NOT_STARTED one —
the two runs agree except for the status field carried by that task — and
in particular, on a successful in-horizon fit an IN_PROGRESS task is
committed: its scheduled dates (stale ones included) are overwritten and
the cursor advances; only COMPLETED exempts a task. -/
theorem c10_in_progress_like_not_started (slots : List Schedule)
    (opts : ScheduleOptions) (le : Option ℕ) (t : Task)
    (rest : List Task) :
    (scheduleGo slots opts le
          ({ t with status := TaskStatus.IN_PROGRESS } :: rest)
        = setStatusOfHead TaskStatus.IN_PROGRESS
            (scheduleGo slots opts le
              ({ t with status := TaskStatus.NOT_STARTED } :: rest)))
    ∧ ∀ slot s e, findSlotForTask t slots = some slot →
        canTaskFitInSlot t slot = true →
        getNextAvailableTime opts.startDate slot t.duration le = some (s, e) →
        e ≤ opts.endDate →
        scheduleGo slots opts le
            ({ t with status := TaskStatus.IN_PROGRESS } :: rest)
          = { t with
                status := TaskStatus.IN_PROGRESS
                scheduledStartDate := some s
                scheduledEndDate := some e }
              :: scheduleGo slots opts (some e) rest := by
  constructor
  · cases hslot : findSlotForTask { t with status := TaskStatus.NOT_STARTED } slots with
    | none =>
      have hslot' : findSlotForTask { t with status := TaskStatus.IN_PROGRESS } slots = none := hslot
      rw [scheduleGo_cons_noSlot opts le rest (fun h => TaskStatus.noConfusion h) hslot',
        scheduleGo_cons_noSlot opts le rest (fun h => TaskStatus.noConfusion h) hslot]
      rfl
    | some slot =>
      have hslot' : findSlotForTask { t with status := TaskStatus.IN_PROGRESS } slots = some slot := hslot
      cases hfit : canTaskFitInSlot { t with status := TaskStatus.NOT_STARTED } slot with
      | false =>
        have hfit' : canTaskFitInSlot { t with status := TaskStatus.IN_PROGRESS } slot = false := hfit
        rw [scheduleGo_cons_noFit opts le rest (fun h => TaskStatus.noConfusion h) hslot' hfit',
          scheduleGo_cons_noFit opts le rest (fun h => TaskStatus.noConfusion h) hslot hfit]
        rfl
      | true =>
        have hfit' : canTaskFitInSlot { t with status := TaskStatus.IN_PROGRESS } slot = true := hfit
        cases hnext : getNextAvailableTime opts.startDate slot
            ({ t with status := TaskStatus.NOT_STARTED } : Task).duration le with
        | none =>
          have hnext' : getNextAvailableTime opts.startDate slot
              ({ t with status := TaskStatus.IN_PROGRESS } : Task).duration le = none := hnext
          rw [scheduleGo_cons_noTime rest (fun h => TaskStatus.noConfusion h) hslot' hfit' hnext',
            scheduleGo_cons_noTime rest (fun h => TaskStatus.noConfusion h) hslot hfit hnext]
          rfl
        | some r =>
          obtain ⟨s, e⟩ := r
          have hnext' : getNextAvailableTime opts.startDate slot
              ({ t with status := TaskStatus.IN_PROGRESS } : Task).duration le = some (s, e) := hnext
          by_cases hend : e ≤ opts.endDate
          · rw [scheduleGo_cons_commit rest (fun h => TaskStatus.noConfusion h) hslot' hfit' hnext' hend,
              scheduleGo_cons_commit rest (fun h => TaskStatus.noConfusion h) hslot hfit hnext hend]
            rfl
          · rw [scheduleGo_cons_lateEnd rest (fun h => TaskStatus.noConfusion h) hslot' hfit' hnext' hend,
              scheduleGo_cons_lateEnd rest (fun h => TaskStatus.noConfusion h) hslot hfit hnext hend]
            rfl
  · intro slot s e hslot hfit hnext hend
    have hslot' : findSlotForTask { t with status := TaskStatus.IN_PROGRESS } slots = some slot := hslot
    have hfit' : canTaskFitInSlot { t with status := TaskStatus.IN_PROGRESS } slot = true := hfit
    have hnext' : getNextAvailableTime opts.startDate slot
        ({ t with status := TaskStatus.IN_PROGRESS } : Task).duration le = some (s, e) := hnext
    rw [scheduleGo_cons_commit rest (fun h => TaskStatus.noConfusion h) hslot' hfit' hnext' hend]

theorem c10_witness :
    scheduleGo [workdaySlot] { startDate := 1440, endDate := 12960 } none
        [{ staleTask with status := TaskStatus.IN_PROGRESS }]
      = [{ staleTask with
            status := TaskStatus.IN_PROGRESS
            scheduledStartDate := some 1980
            scheduledEndDate := some 2040 }] :=
  (c10_in_progress_like_not_started [workdaySlot]
      { startDate := 1440, endDate := 12960 } none staleTask []).2
    workdaySlot 1980 2040 (by decide) (by decide) (by decide) (by decide)

end AlgorithmsScheduler
